import Mathlib

/-!
Verification development for the test-case extraction-and-scoring core
(`services/test_case_service.py`).

Strings are modelled as `List Char`.  Each Python regular expression used by
the source is translated into a dedicated scanning function that implements
that concrete pattern's semantics (leftmost match, greedy character classes,
lazy dot-groups stopped by the lookahead alternatives, `$` matching at the
end of the text or just before a final newline).  All recursions are
structural or fuel-based so every definition evaluates by `decide`.
-/

set_option maxRecDepth 40000

/-! ### Character classes -/

/-- Python whitespace characters (the ASCII set recognised by `str.strip`
and by the regex class `\s` on the inputs considered here). -/
def isWsB (c : Char) : Bool :=
  c == ' ' || c == '\t' || c == '\n' || c == '\r' || c == '\x0b' || c == '\x0c'

/-- The regex class `[\w-]`: word characters or a hyphen. -/
def isWordHyB (c : Char) : Bool :=
  c.isAlphanum || c == '_' || c == '-'

/-! ### Basic list-of-char utilities -/

/-- Python `str.lstrip()`. -/
def lstrip (l : List Char) : List Char := l.dropWhile isWsB

/-- Python `str.strip()`: drop whitespace from both ends. -/
def strip (l : List Char) : List Char :=
  ((l.dropWhile isWsB).reverse.dropWhile isWsB).reverse

/-- Skip the maximal run of whitespace (the greedy `\s*`). -/
def skipWs (l : List Char) : List Char := l.dropWhile isWsB

/-- Python `needle in haystack` substring test. -/
def containsSub : List Char → List Char → Bool
  | [], p => p.isPrefixOf []
  | l@(_ :: cs), p => p.isPrefixOf l || containsSub cs p

/-- Python `s.split('\n')`. -/
def splitNl : List Char → List (List Char)
  | [] => [[]]
  | c :: cs =>
    if c = '\n' then [] :: splitNl cs
    else
      match splitNl cs with
      | [] => [[c]]
      | p :: ps => (c :: p) :: ps

/-- Python `'\n'.join(lines)`. -/
def joinNl : List (List Char) → List Char
  | [] => []
  | [l] => l
  | l :: ls => l ++ '\n' :: joinNl ls

/-- The suffixes of `l` that begin just after a newline character
(the positions, other than the start, where a `re.MULTILINE` `^` matches). -/
def lineStartsAux : List Char → List (List Char)
  | [] => []
  | c :: cs => if c = '\n' then cs :: lineStartsAux cs else lineStartsAux cs

/-- All suffixes of `l` at which a `re.MULTILINE` `^` matches. -/
def lineStartsAll (l : List Char) : List (List Char) := l :: lineStartsAux l

/-- Map with a running index. -/
def mapIdx1 (f : Nat → α → β) : Nat → List α → List β
  | _, [] => []
  | i, a :: as => f i a :: mapIdx1 f (i + 1) as

/-- Lazy group scan `(.*?)(?=LOOK)` with `re.DOTALL`: consume characters
until the first position where `look` holds, returning the consumed group
together with the remaining suffix. -/
def lazyUntil (look : List Char → Bool) : List Char → (List Char × List Char)
  | [] => ([], [])
  | l@(c :: cs) =>
    if look l then ([], l)
    else
      let p := lazyUntil look cs
      (c :: p.1, p.2)

/-- Leftmost-match scan: try `f` at every suffix, left to right. -/
def searchFrom (f : List Char → Option α) : List Char → Option α
  | [] => f []
  | l@(_ :: cs) =>
    match f l with
    | some a => some a
    | none => searchFrom f cs

/-- Match a literal at the head and return the remainder. -/
def afterLit (lit : List Char) (l : List Char) : Option (List Char) :=
  if lit.isPrefixOf l then some (l.drop lit.length) else none

/-- An optional colon, as in the regex fragment `:?` (greedy). -/
def dropColonOpt : List Char → List Char
  | ':' :: rest => rest
  | l => l

/-- The regex `$` (no `re.MULTILINE`): end of text, or just before a final
newline. -/
def dollar : List Char → Bool
  | [] => true
  | [c] => c == '\n'
  | _ => false

/-- First separator of `seps` matching at the head, returning its length. -/
def sepHere (seps : List (List Char)) (l : List Char) : Option Nat :=
  seps.findSome? fun s => if s.isPrefixOf l then some s.length else none

/-- Python `str.split(sep)` / `re.split` on literal alternatives: split at
each leftmost non-overlapping occurrence of one of `seps`. -/
def splitOnSepsAux (seps : List (List Char)) : Nat → List Char → List (List Char)
  | 0, l => [l]
  | _ + 1, [] => [[]]
  | fuel + 1, l@(c :: cs) =>
    match sepHere seps l with
    | some n => [] :: splitOnSepsAux seps fuel (l.drop n)
    | none =>
      match splitOnSepsAux seps fuel cs with
      | [] => [[c]]
      | p :: ps => (c :: p) :: ps

/-- Split on literal separator alternatives. -/
def splitOnSeps (seps : List (List Char)) (l : List Char) : List (List Char) :=
  splitOnSepsAux seps (l.length + 1) l

/-- Python `str.split(sep)` for a single non-empty literal separator. -/
def splitSeq (sep : List Char) (l : List Char) : List (List Char) :=
  splitOnSeps [sep] l

/-- First occurrence of a literal reachable without crossing a newline:
the lazy group `(.*?)` before the closing emphasis marker has no
`re.DOTALL`, so its `.` cannot consume a newline — the search fails if a
newline appears before the literal.  Returns the part before the literal
and the suffix after it. -/
def findSubNoNl (sep : List Char) : List Char → Option (List Char × List Char)
  | [] => if sep.isPrefixOf ([] : List Char) then some ([], []) else none
  | l@(c :: cs) =>
    if sep.isPrefixOf l then some ([], l.drop sep.length)
    else if c = '\n' then none
    else (findSubNoNl sep cs).map fun p => (c :: p.1, p.2)

/-! ### Decimal rendering of naturals (for `f"{idx:03d}"` and step numbers) -/

/-- The decimal digit character for `d < 10`. -/
def digitChar (d : Nat) : Char := Char.ofNat (48 + d)

/-- Decimal digits of `n`, with fuel. -/
def natToCharsAux : Nat → Nat → List Char
  | 0, _ => []
  | fuel + 1, n =>
    if n < 10 then [digitChar n]
    else natToCharsAux fuel (n / 10) ++ [digitChar (n % 10)]

/-- Decimal rendering of a natural number (Python `str(n)`). -/
def natToChars (n : Nat) : List Char := natToCharsAux (n + 1) n

/-- Python `f"{n:03d}"`: zero-pad to width 3. -/
def pad3 (n : Nat) : List Char :=
  let ds := natToChars n
  if ds.length < 3 then List.replicate (3 - ds.length) '0' ++ ds else ds

/-! ### Markdown / whitespace cleanup (the module-level `re.sub` calls) -/

/-- One pass of `re.sub(r'#{1,6}\s+', '', text)`: a run of one to six `#`
followed by at least one whitespace character is removed together with the
maximal whitespace run; a longer `#`-run does not match at its first
characters (the scan then advances by one character, exactly as the regex
engine does). -/
def cleanHeadersAux : Nat → List Char → List Char
  | 0, l => l
  | _ + 1, [] => []
  | fuel + 1, l@(c :: cs) =>
    if c = '#' then
      let run := l.takeWhile (fun x => x == '#')
      let rest := l.drop run.length
      if run.length ≤ 6 && isWsB (rest.headD 'x') then
        cleanHeadersAux fuel (rest.dropWhile isWsB)
      else c :: cleanHeadersAux fuel cs
    else c :: cleanHeadersAux fuel cs

/-- `re.sub(r'#{1,6}\s+', '', text)`. -/
def cleanHeaders (l : List Char) : List Char := cleanHeadersAux (l.length + 1) l

/-- `re.sub(r'\n{3,}', '\n\n', text)`: collapse runs of three or more
newlines to exactly two. -/
def collapseNlAux : Nat → List Char → List Char
  | 0, l => l
  | _ + 1, [] => []
  | fuel + 1, l@(c :: cs) =>
    if c = '\n' then
      let run := l.takeWhile (fun x => x == '\n')
      if 3 ≤ run.length then '\n' :: '\n' :: collapseNlAux fuel (l.drop run.length)
      else c :: collapseNlAux fuel cs
    else c :: collapseNlAux fuel cs

/-- `re.sub(r'\n{3,}', '\n\n', text)`. -/
def collapseNl (l : List Char) : List Char := collapseNlAux (l.length + 1) l

/-- `re.sub(r'\*\*(.*?)\*\*', r'\1', text)`: unwrap the leftmost-shortest
`**…**` spans; replacements are not rescanned. -/
def unwrapBoldAux : Nat → List Char → List Char
  | 0, l => l
  | _ + 1, [] => []
  | fuel + 1, l@(c :: cs) =>
    if ('*' :: '*' :: []).isPrefixOf l then
      match findSubNoNl ('*' :: '*' :: []) (l.drop 2) with
      | some (inner, rest) => inner ++ unwrapBoldAux fuel rest
      | none => c :: unwrapBoldAux fuel cs
    else c :: unwrapBoldAux fuel cs

/-- `re.sub(r'\*\*(.*?)\*\*', r'\1', text)`. -/
def unwrapBold (l : List Char) : List Char := unwrapBoldAux (l.length + 1) l

/-- `re.sub(r'\*(.*?)\*', r'\1', text)`. -/
def unwrapItalicAux : Nat → List Char → List Char
  | 0, l => l
  | _ + 1, [] => []
  | fuel + 1, c :: cs =>
    if c = '*' then
      match findSubNoNl ('*' :: []) cs with
      | some (inner, rest) => inner ++ unwrapItalicAux fuel rest
      | none => c :: unwrapItalicAux fuel cs
    else c :: unwrapItalicAux fuel cs

/-- `re.sub(r'\*(.*?)\*', r'\1', text)`. -/
def unwrapItalic (l : List Char) : List Char := unwrapItalicAux (l.length + 1) l

/-- `TestCaseService._clean_field_content`. -/
def cleanFieldContent (content : List Char) : List Char :=
  if content.isEmpty then []
  else strip (collapseNl (unwrapItalic (unwrapBold (cleanHeaders content))))

/-! ### Step formatting (`TestCaseService._format_steps`) -/

/-- The regex `^\d+\.` at the head of a line: a non-empty digit run followed
by a period. -/
def startsNumDot (l : List Char) : Bool :=
  let ds := l.takeWhile Char.isDigit
  !ds.isEmpty &&
    match l.drop ds.length with
    | '.' :: _ => true
    | _ => false

/-- The non-empty stripped lines of the cleaned steps text. -/
def stepSourceLines (t : List Char) : List (List Char) :=
  ((splitNl (cleanFieldContent t)).map strip).filter fun l => !l.isEmpty

/-- The numbering loop of `_format_steps`: a line already starting with
`<digits>.` is kept verbatim, any other line is prefixed with
`<k>. ` where `k - 1` lines have been emitted before it. -/
def renumber (k : Nat) : List (List Char) → List (List Char)
  | [] => []
  | l :: ls =>
    (if startsNumDot l then l else natToChars (k + 1) ++ '.' :: ' ' :: l) ::
      renumber (k + 1) ls

/-- `TestCaseService._format_steps`. -/
def formatSteps (t : List Char) : List Char :=
  if t.isEmpty then []
  else joinNl (renumber 0 (stepSourceLines t))

/-! ### Block segmentation (the two `re.findall` anchor patterns) -/

/-- Attempt of the primary anchor `Test Case ([\w-]+):` at the head:
the literal, then a maximal non-empty `[\w-]` run, then a colon. -/
def matchPrimAnchor (l : List Char) : Option (List Char × List Char) :=
  match afterLit "Test Case ".data l with
  | none => none
  | some r =>
    let lab := r.takeWhile isWordHyB
    if lab.isEmpty then none
    else
      match r.drop lab.length with
      | ':' :: rest => some (lab, rest)
      | _ => none

/-- Lookahead `(?=Test Case [\w-]+:|$)`. -/
def lookPrim (l : List Char) : Bool :=
  (matchPrimAnchor l).isSome || dollar l

/-- `re.findall(r'Test Case ([\w-]+):(.*?)(?=Test Case [\w-]+:|$)', text,
re.DOTALL)`, producing `(label, content)` pairs. -/
def findallPrimAux : Nat → List Char → List (List Char × List Char)
  | 0, _ => []
  | _ + 1, [] => []
  | fuel + 1, l@(_ :: cs) =>
    match matchPrimAnchor l with
    | some (lab, rest) =>
      let pr := lazyUntil lookPrim rest
      (lab, pr.1) :: findallPrimAux fuel pr.2
    | none => findallPrimAux fuel cs

/-- Primary-anchor `findall`. -/
def findallPrim (l : List Char) : List (List Char × List Char) :=
  findallPrimAux (l.length + 1) l

/-- Attempt of the secondary anchor `(ID-\d+):` at the head; the captured
label includes the `ID-` prefix. -/
def matchSecAnchor (l : List Char) : Option (List Char × List Char) :=
  match afterLit "ID-".data l with
  | none => none
  | some r =>
    let ds := r.takeWhile Char.isDigit
    if ds.isEmpty then none
    else
      match r.drop ds.length with
      | ':' :: rest => some ("ID-".data ++ ds, rest)
      | _ => none

/-- Lookahead `(?=ID-\d+:|$)`. -/
def lookSec (l : List Char) : Bool :=
  (matchSecAnchor l).isSome || dollar l

/-- `re.findall(r'(ID-\d+):(.*?)(?=ID-\d+:|$)', text, re.DOTALL)`. -/
def findallSecAux : Nat → List Char → List (List Char × List Char)
  | 0, _ => []
  | _ + 1, [] => []
  | fuel + 1, l@(_ :: cs) =>
    match matchSecAnchor l with
    | some (lab, rest) =>
      let pr := lazyUntil lookSec rest
      (lab, pr.1) :: findallSecAux fuel pr.2
    | none => findallSecAux fuel cs

/-- Secondary-anchor `findall`. -/
def findallSec (l : List Char) : List (List Char × List Char) :=
  findallSecAux (l.length + 1) l

/-- The block list of `parse_test_cases`: the primary anchor's matches, or
the secondary anchor's matches when the primary finds none. -/
def matchesOf (text : List Char) : List (List Char × List Char) :=
  let normalized := cleanHeaders text
  let ms := findallPrim normalized
  if ms.isEmpty then findallSec normalized else ms

/-! ### Per-block field extraction -/

/-- `re.search(r'Section:\s*(.*?)(?=\n|$)', content)` with the guard and the
`"General"` default. -/
def sectionOf (content : List Char) : List Char :=
  match searchFrom (afterLit "Section:".data) content with
  | some rest =>
    let g := (skipWs rest).takeWhile fun c => !(c == '\n')
    if (strip g).isEmpty then "General".data else strip g
  | none => "General".data

/-- The literal head of `Preconditions?:` (greedy `s?`). -/
def matchPrecondLit (l : List Char) : Option (List Char) :=
  (afterLit "Preconditions:".data l).orElse fun _ => afterLit "Precondition:".data l

/-- Lookahead `(?=\nSteps|\n[Ss]teps:|$)`. -/
def lookPre (l : List Char) : Bool :=
  ("\nSteps".data).isPrefixOf l || ("\nsteps:".data).isPrefixOf l || dollar l

/-- `re.search(r'Preconditions?:\s*(.*?)(?=\nSteps|\n[Ss]teps:|$)', content,
re.DOTALL)` with the non-empty guard and field cleanup. -/
def precondOf (content : List Char) : List Char :=
  match searchFrom matchPrecondLit content with
  | some rest =>
    let g := (lazyUntil lookPre (skipWs rest)).1
    if (strip g).isEmpty then [] else cleanFieldContent g
  | none => []

/-- The literal head of `Steps?:` (greedy `s?`). -/
def matchStepsLit (l : List Char) : Option (List Char) :=
  (afterLit "Steps:".data l).orElse fun _ => afterLit "Step:".data l

/-- Lookahead `(?=Expected Result|[Ee]xpected [Rr]esult:|$)`. -/
def lookE1 (l : List Char) : Bool :=
  ("Expected Result".data).isPrefixOf l || ("Expected result:".data).isPrefixOf l ||
    ("expected Result:".data).isPrefixOf l || ("expected result:".data).isPrefixOf l ||
    dollar l

/-- Lookahead `(?=\nExpected|\n[Ee]xpected:|$)`. -/
def lookE2 (l : List Char) : Bool :=
  ("\nExpected".data).isPrefixOf l || ("\nexpected:".data).isPrefixOf l || dollar l

/-- The loop over the two steps patterns: first alternative whose group is
non-empty after stripping wins, and the stripped group is run through
`_format_steps`. -/
def stepsOf (content : List Char) : List Char :=
  match searchFrom matchStepsLit content with
  | some rest =>
    if !(strip (lazyUntil lookE1 rest).1).isEmpty then
      formatSteps (strip (lazyUntil lookE1 rest).1)
    else
      match searchFrom matchStepsLit content with
      | some rest2 =>
        if !(strip (lazyUntil lookE2 rest2).1).isEmpty then
          formatSteps (strip (lazyUntil lookE2 rest2).1)
        else []
      | none => []
  | none => []

/-- `re.search(r'^\s*\d+\.', potential_steps, re.MULTILINE)`: at some line
start, the maximal whitespace run is followed by a digit run and a period. -/
def hasNumLine (l : List Char) : Bool :=
  (lineStartsAll l).any fun s => startsNumDot (s.dropWhile isWsB)

/-- The corrective pass for steps nested in preconditions (the
`if not steps and "Steps:" in content` block): returns the updated
`(steps, preconditions)` pair. -/
def correctiveStage (content steps pre : List Char) : List Char × List Char :=
  if steps.isEmpty && containsSub content "Steps:".data then
    if 1 < (splitSeq "Steps:".data content).length then
      if hasNumLine (strip ((splitSeq "Steps:".data content).getD 1 [])) then
        (formatSteps (strip ((splitSeq "Expected Result:".data
            (strip ((splitSeq "Steps:".data content).getD 1 []))).getD 0 [])),
         if !pre.isEmpty && containsSub pre "Steps:".data then
           strip ((splitSeq "Steps:".data pre).getD 0 [])
         else pre)
      else (steps, pre)
    else (steps, pre)
  else (steps, pre)

/-- The literal head of `Expected Result:?\s*`. -/
def matchExpLit (l : List Char) : Option (List Char) :=
  (afterLit "Expected Result".data l).map fun r => skipWs (dropColonOpt r)

/-- Lookahead `(?=\nInput|\n[Ii]nput:|$)`. -/
def lookI1 (l : List Char) : Bool :=
  ("\nInput".data).isPrefixOf l || ("\ninput:".data).isPrefixOf l || dollar l

/-- Lookahead `(?=\nInput Data|\n[Ii]nput [Dd]ata:|$)`. -/
def lookI2 (l : List Char) : Bool :=
  ("\nInput Data".data).isPrefixOf l || ("\nInput data:".data).isPrefixOf l ||
    ("\ninput Data:".data).isPrefixOf l || ("\ninput data:".data).isPrefixOf l ||
    dollar l

/-- The loop over the two expected-result patterns. -/
def expectedOf (content : List Char) : List Char :=
  match searchFrom matchExpLit content with
  | some rest =>
    let g1 := (lazyUntil lookI1 rest).1
    if !(strip g1).isEmpty then cleanFieldContent g1
    else
      match searchFrom matchExpLit content with
      | some rest2 =>
        let g2 := (lazyUntil lookI2 rest2).1
        if !(strip g2).isEmpty then cleanFieldContent g2 else []
      | none => []
  | none => []

/-- The literal head of `Input:?\s*`. -/
def matchInputLit (l : List Char) : Option (List Char) :=
  (afterLit "Input".data l).map fun r => skipWs (dropColonOpt r)

/-- The literal head of `Input Data:?\s*`. -/
def matchInputDataLit (l : List Char) : Option (List Char) :=
  (afterLit "Input Data".data l).map fun r => skipWs (dropColonOpt r)

/-- Lookahead `(?=\nNotes|\n[Nn]otes:|$)`. -/
def lookN (l : List Char) : Bool :=
  ("\nNotes".data).isPrefixOf l || ("\nnotes:".data).isPrefixOf l || dollar l

/-- The loop over the two input-data patterns. -/
def inputOf (content : List Char) : List Char :=
  match searchFrom matchInputLit content with
  | some rest =>
    let g1 := (lazyUntil lookN rest).1
    if !(strip g1).isEmpty then cleanFieldContent g1
    else
      match searchFrom matchInputDataLit content with
      | some rest2 =>
        let g2 := (lazyUntil lookN rest2).1
        if !(strip g2).isEmpty then cleanFieldContent g2 else []
      | none => []
  | none => []

/-- The literal head of `Notes:?\s*`. -/
def matchNotesLit (l : List Char) : Option (List Char) :=
  (afterLit "Notes".data l).map fun r => skipWs (dropColonOpt r)

/-- The loop over the two notes patterns (`(.*?)$` then `(.*)$`; on the
matched remainder the lazy group stops at `$`, the greedy one takes the
whole remainder). -/
def notesOf (content : List Char) : List Char :=
  match searchFrom matchNotesLit content with
  | some rest =>
    let g1 := (lazyUntil dollar rest).1
    if !(strip g1).isEmpty then cleanFieldContent g1
    else if !(strip rest).isEmpty then cleanFieldContent rest
    else []
  | none => []

/-- The separator alternatives of
`re.split(r'\nExpected Result:|\n[Ee]xpected [Rr]esult:', steps)`. -/
def recSeps : List (List Char) :=
  ["\nExpected Result:".data, "\nExpected result:".data,
   "\nexpected Result:".data, "\nexpected result:".data]

/-- The recovery rule (the `if not expected_result and steps` block):
returns the updated `(steps, expected_result)` pair. -/
def recoveryStage (steps expected : List Char) : List Char × List Char :=
  if expected.isEmpty && !steps.isEmpty then
    if 1 < (splitOnSeps recSeps steps).length then
      (formatSteps ((splitOnSeps recSeps steps).getD 0 []),
       cleanFieldContent ((splitOnSeps recSeps steps).getD 1 []))
    else (steps, expected)
  else (steps, expected)

/-! ### Records -/

/-- A parsed test case (the dictionary built by `parse_test_cases`). -/
structure ParsedTestCase where
  id : List Char
  ticket_key : List Char
  sectionName : List Char
  preconditions : List Char
  steps : List Char
  expected_result : List Char
  input_data : List Char
  notes : List Char
  is_complete : Bool
deriving DecidableEq, Repr

/-- `f"TC-{test_id.strip()}" if test_id.strip() else f"TC-{idx:03d}"`. -/
def mkTestCaseId (tid : List Char) (idx : Nat) : List Char :=
  if !(strip tid).isEmpty then "TC-".data ++ strip tid
  else "TC-".data ++ pad3 idx

/-- The incomplete-field list: whichever of preconditions, steps and
expected_result are empty, in that fixed order. -/
def incompleteOf (pre steps exp : List Char) : List (List Char) :=
  (if pre.isEmpty then ["preconditions".data] else []) ++
    (if steps.isEmpty then ["steps".data] else []) ++
    (if exp.isEmpty then ["expected_result".data] else [])

/-- Assemble the record; `is_complete` is true exactly when the
incomplete-field list is empty. -/
def buildRecord (key id sect pre steps exp inp nts : List Char) : ParsedTestCase :=
  { id := id, ticket_key := key, sectionName := sect, preconditions := pre,
    steps := steps, expected_result := exp, input_data := inp, notes := nts,
    is_complete := (incompleteOf pre steps exp).isEmpty }

/-- Field extraction for one block (`idx` is the block's 1-based position). -/
def parseBlock (key : List Char) (idx : Nat) (tid rawContent : List Char) :
    ParsedTestCase :=
  let content := collapseNl (strip rawContent)
  let sect := sectionOf content
  let pre0 := precondOf content
  let steps0 := stepsOf content
  let corr := correctiveStage content steps0 pre0
  let exp0 := expectedOf content
  let inp := inputOf content
  let nts := notesOf content
  let rec2 := recoveryStage corr.1 exp0
  buildRecord key (mkTestCaseId tid idx) sect corr.2 rec2.1 rec2.2 inp nts

/-- `TestCaseService.parse_test_cases`. -/
def parse_test_cases (text key : List Char) : List ParsedTestCase :=
  let ms := matchesOf text
  if ms.isEmpty then []
  else mapIdx1 (fun i m => parseBlock key (i + 1) m.1 m.2) 0 ms

/-! ### Scorer (`validate_test_cases` and `_has_appropriate_step_count`) -/

/-- `len(re.findall(r'^\d+\.', steps, re.MULTILINE))`. -/
def stepCountOf (steps : List Char) : Nat :=
  (lineStartsAll steps).countP startsNumDot

/-- The fixed simple-section keyword list. -/
def simpleSections : List (List Char) :=
  ["login".data, "logout".data, "search".data, "filter".data, "sort".data,
   "view".data]

/-- The fixed complex-section keyword list. -/
def complexSections : List (List Char) :=
  ["upload".data, "workflow".data, "wizard".data, "checkout".data,
   "registration".data, "import".data, "export".data]

/-- Python `str.lower()` (ASCII). -/
def lowerL (l : List Char) : List Char := l.map Char.toLower

/-- Some simple keyword occurs in the lowercased section. -/
def sectionIsSimple (sect : List Char) : Bool :=
  simpleSections.any fun k => containsSub (lowerL sect) k

/-- Some complex keyword occurs in the lowercased section. -/
def sectionIsComplex (sect : List Char) : Bool :=
  complexSections.any fun k => containsSub (lowerL sect) k

/-- `TestCaseService._has_appropriate_step_count`. -/
def hasAppropriateStepCount (sect : List Char) (stepCount : Nat) : Bool :=
  if sectionIsSimple sect then decide (3 ≤ stepCount) && decide (stepCount ≤ 6)
  else if sectionIsComplex sect then decide (5 ≤ stepCount)
  else decide (3 ≤ stepCount)

/-- The criteria dictionary, in declaration order, as `(name, value)` pairs. -/
def criteriaOf (tc : ParsedTestCase) : List (List Char × Bool) :=
  let sc := stepCountOf tc.steps
  [("has_preconditions".data, decide (5 < tc.preconditions.length)),
   ("has_minimum_steps".data, decide (3 ≤ sc)),
   ("has_appropriate_step_count".data, hasAppropriateStepCount tc.sectionName sc),
   ("has_expected_result".data, decide (10 < tc.expected_result.length)),
   ("has_input_data".data, decide (3 < tc.input_data.length)),
   ("covers_multiple_scenarios".data,
     containsSub (lowerL tc.input_data) "invalid".data ||
       containsSub (lowerL tc.notes) "edge case".data ||
       containsSub (lowerL tc.notes) "boundary".data),
   ("is_complete".data, tc.is_complete)]

/-- One quality-score record. -/
structure QualityScore where
  test_case_id : List Char
  score : ℚ
  areas_for_improvement : List (List Char)
  incomplete_fields : List (List Char)
deriving DecidableEq, Repr

/-- The per-record body of `validate_test_cases`. -/
def scoreOf (tc : ParsedTestCase) : QualityScore :=
  let crit := criteriaOf tc
  { test_case_id := tc.id,
    score := ((crit.countP fun p => p.2 : Nat) : ℚ) * 100 / ((crit.length : Nat) : ℚ),
    areas_for_improvement := crit.filterMap fun p => if p.2 then none else some p.1,
    incomplete_fields :=
      if tc.is_complete then []
      else incompleteOf tc.preconditions tc.steps tc.expected_result }

/-- `TestCaseService.validate_test_cases`. -/
def validate_test_cases (tcs : List ParsedTestCase) : List QualityScore :=
  tcs.map scoreOf

/-- Default record used with `List.getD`. -/
def dTC : ParsedTestCase := ⟨[], [], [], [], [], [], [], [], false⟩

/-- Default score used with `List.getD`. -/
def dQS : QualityScore := ⟨[], 0, [], []⟩

/-- Default match pair used with `List.getD`. -/
def dMatch : List Char × List Char := ([], [])

/-! ### Helper lemmas: indexed map and list access -/

theorem length_mapIdx1 (f : Nat → α → β) :
    ∀ (i : Nat) (l : List α), (mapIdx1 f i l).length = l.length := by
  intro i l
  induction l generalizing i with
  | nil => rfl
  | cons a as ih => simp [mapIdx1, ih]

theorem getD_mapIdx1 (f : Nat → α → β) (d : β) (d' : α) :
    ∀ (l : List α) (i0 i : Nat), i < l.length →
      (mapIdx1 f i0 l).getD i d = f (i0 + i) (l.getD i d') := by
  intro l
  induction l with
  | nil => intro i0 i hi; simp at hi
  | cons a as ih =>
    intro i0 i hi
    cases i with
    | zero => simp [mapIdx1]
    | succ n =>
      have hn : n < as.length := by simpa using hi
      have h2 := ih (i0 + 1) n hn
      simp only [mapIdx1, List.getD_cons_succ]
      rw [h2]
      congr 1
      omega

theorem mem_mapIdx1 (f : Nat → α → β) :
    ∀ (i0 : Nat) (l : List α) (b : β), b ∈ mapIdx1 f i0 l →
      ∃ j a, a ∈ l ∧ b = f j a := by
  intro i0 l
  induction l generalizing i0 with
  | nil => intro b hb; simp [mapIdx1] at hb
  | cons a as ih =>
    intro b hb
    rcases (List.mem_cons).mp hb with h | h
    · exact ⟨i0, a, List.mem_cons_self a as, h⟩
    · rcases ih (i0 + 1) b h with ⟨j, a', ha', hb'⟩
      exact ⟨j, a', List.mem_cons_of_mem _ ha', hb'⟩

theorem getD_map' (f : α → β) (d : β) (d' : α) :
    ∀ (l : List α) (i : Nat), i < l.length →
      (l.map f).getD i d = f (l.getD i d') := by
  intro l
  induction l with
  | nil => intro i hi; simp at hi
  | cons a as ih =>
    intro i hi
    cases i with
    | zero => simp
    | succ n => simpa using ih n (by simpa using hi)

/-! ### Helper lemmas: structure of `parse_test_cases` -/

theorem parse_length (text key : List Char) :
    (parse_test_cases text key).length = (matchesOf text).length := by
  simp only [parse_test_cases]
  cases h : matchesOf text with
  | nil => simp
  | cons a as => simp [length_mapIdx1]

theorem parse_getD (text key : List Char) (i : Nat)
    (hi : i < (matchesOf text).length) :
    (parse_test_cases text key).getD i dTC =
      parseBlock key (i + 1) ((matchesOf text).getD i dMatch).1
        ((matchesOf text).getD i dMatch).2 := by
  simp only [parse_test_cases]
  cases h : matchesOf text with
  | nil => rw [h] at hi; simp at hi
  | cons a as =>
    rw [h] at hi
    simpa using getD_mapIdx1 (fun i m => parseBlock key (i + 1) m.1 m.2) dTC dMatch
      (a :: as) 0 i hi

theorem parse_mem (text key : List Char) (r : ParsedTestCase)
    (hr : r ∈ parse_test_cases text key) :
    ∃ j lab content, r = parseBlock key j lab content := by
  simp only [parse_test_cases] at hr
  rcases h : matchesOf text with _ | ⟨a, as⟩
  · rw [h] at hr; simp at hr
  · rw [h] at hr
    simp only [List.isEmpty_cons] at hr
    rcases mem_mapIdx1 _ 0 _ r (by simpa using hr) with ⟨j, m, _, hm⟩
    exact ⟨j + 1, m.1, m.2, hm⟩

theorem validate_getD (tcs : List ParsedTestCase) (i : Nat) (hi : i < tcs.length) :
    (validate_test_cases tcs).getD i dQS = scoreOf (tcs.getD i dTC) :=
  getD_map' scoreOf dQS dTC tcs i hi

/-! ### Concrete inputs used by witnesses and counterexamples -/

/-- A small well-formed input with one complete test-case block. -/
def tBasic : List Char :=
  "Test Case 7:\nPreconditions: ready\nSteps:\n1. go\nExpected Result: ok".data

/-- An input with no anchor of either form. -/
def tNoAnchor : List Char := "hello world".data

/-! ### C1 -/

/-- C1: the Scorer returns exactly one QualityScore per ParsedTestCase, in
the same order: `validate_test_cases` over the output of `parse_test_cases`
preserves the length, and the i-th QualityScore's `test_case_id` equals the
i-th ParsedTestCase's `id`. -/
theorem c1_scorer_length_and_alignment (text key : List Char) :
    (validate_test_cases (parse_test_cases text key)).length =
      (parse_test_cases text key).length ∧
    ∀ i, i < (parse_test_cases text key).length →
      ((validate_test_cases (parse_test_cases text key)).getD i dQS).test_case_id =
        ((parse_test_cases text key).getD i dTC).id := by
  constructor
  · simp [validate_test_cases]
  · intro i hi
    rw [validate_getD _ _ hi]
    rfl

/-- C1 witness: instantiated on a concrete one-block input. -/
theorem c1_witness :
    0 < (parse_test_cases tBasic "K".data).length ∧
    ((validate_test_cases (parse_test_cases tBasic "K".data)).getD 0 dQS).test_case_id =
      ((parse_test_cases tBasic "K".data).getD 0 dTC).id :=
  ⟨by decide, (c1_scorer_length_and_alignment tBasic "K".data).2 0 (by decide)⟩

/-! ### C5 -/

/-- C5: `parse_test_cases` is a total function; when neither the primary
`Test Case <id>:` anchor nor the secondary `ID-<digits>:` anchor matches
anywhere in the normalized text it returns the empty sequence, and every
recognized block yields exactly one record (the per-block extraction, being
total, never drops a block, so a fault in one block could at most remove
that block from the `mapIdx1` image without aborting the others). -/
theorem c5_no_anchor_empty_and_total (text key : List Char) :
    ((findallPrim (cleanHeaders text) = [] ∧ findallSec (cleanHeaders text) = []) →
      parse_test_cases text key = []) ∧
    (parse_test_cases text key).length = (matchesOf text).length := by
  constructor
  · rintro ⟨h1, h2⟩
    have hm : matchesOf text = [] := by
      simp [matchesOf, h1, h2]
    simp [parse_test_cases, hm]
  · exact parse_length text key

/-- C5 witness: a text with no recognizable anchor parses to the empty
sequence. -/
theorem c5_witness : parse_test_cases tNoAnchor "K".data = [] :=
  (c5_no_anchor_empty_and_total tNoAnchor "K".data).1 ⟨by decide, by decide⟩

/-! ### C6 -/

/-- C6: the step-count heuristic classifies the lowercased section against
the simple keyword set (step count must lie in `[3,6]`), else the complex
keyword set (step count must be at least 5), else requires at least 3
steps; a `Login` section with 4 steps passes and a `Checkout` section with
4 steps fails. -/
theorem c6_step_count_heuristic (sect : List Char) (c : Nat) :
    (sectionIsSimple sect = true →
      (hasAppropriateStepCount sect c = true ↔ (3 ≤ c ∧ c ≤ 6))) ∧
    (sectionIsSimple sect = false → sectionIsComplex sect = true →
      (hasAppropriateStepCount sect c = true ↔ 5 ≤ c)) ∧
    (sectionIsSimple sect = false → sectionIsComplex sect = false →
      (hasAppropriateStepCount sect c = true ↔ 3 ≤ c)) ∧
    hasAppropriateStepCount "Login".data 4 = true ∧
    hasAppropriateStepCount "Checkout".data 4 = false := by
  refine ⟨?_, ?_, ?_, by decide, by decide⟩
  · intro h
    simp [hasAppropriateStepCount, h]
  · intro h1 h2
    simp [hasAppropriateStepCount, h1, h2]
  · intro h1 h2
    simp [hasAppropriateStepCount, h1, h2]

/-- C6 witness: the simple-section branch at `Login` with 4 steps. -/
theorem c6_witness :
    hasAppropriateStepCount "Login".data 4 = true ↔ (3 ≤ 4 ∧ 4 ≤ 6) :=
  (c6_step_count_heuristic "Login".data 4).1 (by decide)

/-! ### C10 -/

/-- C10: when the lowercased section contains both a simple keyword and a
complex keyword, the simple rule is applied exclusively: the criterion
holds exactly when the step count lies in `[3,6]`, and the complex `≥ 5`
rule is never consulted. -/
theorem c10_simple_keyword_precedence (sect : List Char) (c : Nat)
    (hs : sectionIsSimple sect = true) (hc : sectionIsComplex sect = true) :
    hasAppropriateStepCount sect c = true ↔ (3 ≤ c ∧ c ≤ 6) := by
  simp [hasAppropriateStepCount, hs]

/-- C10 witness: a section containing both `login` and `checkout`, with 7
steps (which the complex rule would accept), is rejected by the simple
rule. -/
theorem c10_witness :
    hasAppropriateStepCount "Login Checkout".data 7 = true ↔ (3 ≤ 7 ∧ 7 ≤ 6) :=
  c10_simple_keyword_precedence "Login Checkout".data 7 (by decide) (by decide)

/-! ### C4 -/

/-- C4: every quality score equals `100 × (number of true criteria) / 7`
(as an exact rational), lies in `[0,100]`, is a natural multiple of
`100/7`, and `areas_for_improvement` lists exactly the criteria that
evaluated false, in declaration order. -/
theorem c4_score_formula_and_bounds (tcs : List ParsedTestCase) (i : Nat)
    (hi : i < tcs.length) :
    ((validate_test_cases tcs).getD i dQS).score =
      (((criteriaOf (tcs.getD i dTC)).countP (fun p => p.2) : Nat) : ℚ) * 100 / 7 ∧
    0 ≤ ((validate_test_cases tcs).getD i dQS).score ∧
    ((validate_test_cases tcs).getD i dQS).score ≤ 100 ∧
    (∃ k : Nat, k ≤ 7 ∧
      ((validate_test_cases tcs).getD i dQS).score = (k : ℚ) * (100 / 7)) ∧
    ((validate_test_cases tcs).getD i dQS).areas_for_improvement =
      (criteriaOf (tcs.getD i dTC)).filterMap
        (fun p => if p.2 then none else some p.1) := by
  rw [validate_getD tcs i hi]
  have hlen : (((criteriaOf (tcs.getD i dTC)).length : Nat) : ℚ) = 7 := by
    simp [criteriaOf]
  have hsc : (scoreOf (tcs.getD i dTC)).score =
      (((criteriaOf (tcs.getD i dTC)).countP (fun p => p.2) : Nat) : ℚ) * 100 / 7 := by
    rw [show (scoreOf (tcs.getD i dTC)).score =
        (((criteriaOf (tcs.getD i dTC)).countP (fun p => p.2) : Nat) : ℚ) * 100 /
          (((criteriaOf (tcs.getD i dTC)).length : Nat) : ℚ) from rfl, hlen]
  have hk : (criteriaOf (tcs.getD i dTC)).countP (fun p => p.2) ≤ 7 := by
    have h := List.countP_le_length (p := fun p : List Char × Bool => p.2)
      (l := criteriaOf (tcs.getD i dTC))
    simpa [criteriaOf] using h
  have hkq : (((criteriaOf (tcs.getD i dTC)).countP (fun p => p.2) : Nat) : ℚ) ≤ 7 := by
    exact_mod_cast hk
  refine ⟨hsc, ?_, ?_, ⟨(criteriaOf (tcs.getD i dTC)).countP (fun p => p.2), hk, ?_⟩, rfl⟩
  · rw [hsc]; positivity
  · rw [hsc, div_le_iff (by norm_num : (0 : ℚ) < 7)]
    nlinarith [hkq]
  · rw [hsc, mul_div_assoc]

/-- C4 witness: instantiated on the singleton list holding the default
record. -/
theorem c4_witness :
    ((validate_test_cases [dTC]).getD 0 dQS).score =
      (((criteriaOf ([dTC].getD 0 dTC)).countP (fun p => p.2) : Nat) : ℚ) * 100 / 7 ∧
    0 ≤ ((validate_test_cases [dTC]).getD 0 dQS).score ∧
    ((validate_test_cases [dTC]).getD 0 dQS).score ≤ 100 ∧
    (∃ k : Nat, k ≤ 7 ∧
      ((validate_test_cases [dTC]).getD 0 dQS).score = (k : ℚ) * (100 / 7)) ∧
    ((validate_test_cases [dTC]).getD 0 dQS).areas_for_improvement =
      (criteriaOf ([dTC].getD 0 dTC)).filterMap
        (fun p => if p.2 then none else some p.1) :=
  c4_score_formula_and_bounds [dTC] 0 (by decide)

/-! ### C3 helper lemmas -/

theorem incompleteOf_eq (pre st ex : List Char) :
    incompleteOf pre st ex =
      (if pre = [] then ["preconditions".data] else []) ++
      (if st = [] then ["steps".data] else []) ++
      (if ex = [] then ["expected_result".data] else []) := by
  cases pre <;> cases st <;> cases ex <;> simp [incompleteOf]

theorem buildRecord_complete_iff (key id sect pre steps exp inp nts : List Char) :
    ((buildRecord key id sect pre steps exp inp nts).is_complete = true ↔
      (pre ≠ [] ∧ steps ≠ [] ∧ exp ≠ [])) := by
  cases pre <;> cases steps <;> cases exp <;> simp [buildRecord, incompleteOf]

theorem parseBlock_complete_iff (key : List Char) (idx : Nat) (tid raw : List Char) :
    ((parseBlock key idx tid raw).is_complete = true ↔
      ((parseBlock key idx tid raw).preconditions ≠ [] ∧
       (parseBlock key idx tid raw).steps ≠ [] ∧
       (parseBlock key idx tid raw).expected_result ≠ [])) :=
  buildRecord_complete_iff _ _ _ _ _ _ _ _

/-! ### C3 -/

/-- C3: for every record of `parse_test_cases`, `is_complete` holds exactly
when preconditions, steps and expected_result are all non-empty; in the
paired QualityScore, `incomplete_fields` is empty when `is_complete` holds
and otherwise lists, in the fixed order preconditions, steps,
expected_result, exactly the fields that are empty. -/
theorem c3_completeness_flag_and_fields (text key : List Char) (i : Nat)
    (hi : i < (parse_test_cases text key).length) :
    (((parse_test_cases text key).getD i dTC).is_complete = true ↔
      (((parse_test_cases text key).getD i dTC).preconditions ≠ [] ∧
       ((parse_test_cases text key).getD i dTC).steps ≠ [] ∧
       ((parse_test_cases text key).getD i dTC).expected_result ≠ [])) ∧
    (((parse_test_cases text key).getD i dTC).is_complete = true →
      ((validate_test_cases (parse_test_cases text key)).getD i dQS).incomplete_fields
        = []) ∧
    (((parse_test_cases text key).getD i dTC).is_complete = false →
      ((validate_test_cases (parse_test_cases text key)).getD i dQS).incomplete_fields =
        (if ((parse_test_cases text key).getD i dTC).preconditions = []
         then ["preconditions".data] else []) ++
        (if ((parse_test_cases text key).getD i dTC).steps = []
         then ["steps".data] else []) ++
        (if ((parse_test_cases text key).getD i dTC).expected_result = []
         then ["expected_result".data] else [])) := by
  have hm : i < (matchesOf text).length := by
    rw [← parse_length text key]; exact hi
  have hq := validate_getD (parse_test_cases text key) i hi
  have hproj : (scoreOf ((parse_test_cases text key).getD i dTC)).incomplete_fields =
      if ((parse_test_cases text key).getD i dTC).is_complete = true then []
      else incompleteOf ((parse_test_cases text key).getD i dTC).preconditions
        ((parse_test_cases text key).getD i dTC).steps
        ((parse_test_cases text key).getD i dTC).expected_result := rfl
  refine ⟨?_, ?_, ?_⟩
  · rw [parse_getD text key i hm]
    exact parseBlock_complete_iff _ _ _ _
  · intro h
    rw [hq, hproj, if_pos h]
  · intro h
    rw [hq, hproj, if_neg (by rw [h]; simp), incompleteOf_eq]

/-- C3 witness: instantiated on the concrete one-block input. -/
theorem c3_witness :
    (((parse_test_cases tBasic "K".data).getD 0 dTC).is_complete = true ↔
      (((parse_test_cases tBasic "K".data).getD 0 dTC).preconditions ≠ [] ∧
       ((parse_test_cases tBasic "K".data).getD 0 dTC).steps ≠ [] ∧
       ((parse_test_cases tBasic "K".data).getD 0 dTC).expected_result ≠ [])) ∧
    (((parse_test_cases tBasic "K".data).getD 0 dTC).is_complete = true →
      ((validate_test_cases (parse_test_cases tBasic "K".data)).getD 0
          dQS).incomplete_fields = []) ∧
    (((parse_test_cases tBasic "K".data).getD 0 dTC).is_complete = false →
      ((validate_test_cases (parse_test_cases tBasic "K".data)).getD 0
          dQS).incomplete_fields =
        (if ((parse_test_cases tBasic "K".data).getD 0 dTC).preconditions = []
         then ["preconditions".data] else []) ++
        (if ((parse_test_cases tBasic "K".data).getD 0 dTC).steps = []
         then ["steps".data] else []) ++
        (if ((parse_test_cases tBasic "K".data).getD 0 dTC).expected_result = []
         then ["expected_result".data] else [])) :=
  c3_completeness_flag_and_fields tBasic "K".data 0 (by decide)

/-! ### C9 helper lemmas -/

theorem ws_char_cases (c : Char) (h : isWsB c = true) :
    c = ' ' ∨ c = '\t' ∨ c = '\n' ∨ c = '\r' ∨ c = '\x0b' ∨ c = '\x0c' := by
  simp only [isWsB, Bool.or_eq_true, beq_iff_eq] at h
  tauto

theorem wordHy_not_ws (c : Char) (h : isWordHyB c = true) : isWsB c = false := by
  cases hw : isWsB c
  · rfl
  · rcases ws_char_cases c hw with rfl | rfl | rfl | rfl | rfl | rfl <;>
      exact absurd h (by decide)

theorem digit_not_ws (c : Char) (h : c.isDigit = true) : isWsB c = false := by
  cases hw : isWsB c
  · rfl
  · rcases ws_char_cases c hw with rfl | rfl | rfl | rfl | rfl | rfl <;>
      exact absurd h (by decide)

theorem dropWhile_ws_eq_self (l : List Char) (h : ∀ c ∈ l, isWsB c = false) :
    l.dropWhile isWsB = l := by
  cases l with
  | nil => rfl
  | cons a as =>
    rw [List.dropWhile_cons]
    simp [h a (List.mem_cons_self a as)]

theorem strip_eq_self (l : List Char) (h : ∀ c ∈ l, isWsB c = false) :
    strip l = l := by
  unfold strip
  rw [dropWhile_ws_eq_self l h,
    dropWhile_ws_eq_self l.reverse (fun c hc => h c (List.mem_reverse.mp hc)),
    List.reverse_reverse]

theorem matchPrimAnchor_label (l lab rest : List Char)
    (h : matchPrimAnchor l = some (lab, rest)) :
    lab ≠ [] ∧ ∀ c ∈ lab, isWordHyB c = true := by
  unfold matchPrimAnchor at h
  cases ha : afterLit "Test Case ".data l with
  | none => rw [ha] at h; simp at h
  | some r =>
    rw [ha] at h
    dsimp only at h
    by_cases he : (r.takeWhile isWordHyB).isEmpty
    · rw [if_pos he] at h; simp at h
    · rw [if_neg he] at h
      split at h
      · simp only [Option.some.injEq, Prod.mk.injEq] at h
        obtain ⟨rfl, -⟩ := h
        refine ⟨?_, fun c hc => List.mem_takeWhile_imp hc⟩
        intro hnil
        rw [hnil] at he
        exact he rfl
      · simp at h

theorem matchSecAnchor_label (l lab rest : List Char)
    (h : matchSecAnchor l = some (lab, rest)) :
    lab ≠ [] ∧ ∀ c ∈ lab, isWsB c = false := by
  unfold matchSecAnchor at h
  cases ha : afterLit "ID-".data l with
  | none => rw [ha] at h; simp at h
  | some r =>
    rw [ha] at h
    dsimp only at h
    by_cases he : (r.takeWhile Char.isDigit).isEmpty
    · rw [if_pos he] at h; simp at h
    · rw [if_neg he] at h
      split at h
      · simp only [Option.some.injEq, Prod.mk.injEq] at h
        obtain ⟨rfl, -⟩ := h
        refine ⟨by simp, fun c hc => ?_⟩
        rcases List.mem_append.mp hc with hc | hc
        · exact (by decide : ∀ c ∈ "ID-".data, isWsB c = false) c hc
        · exact digit_not_ws c (List.mem_takeWhile_imp hc)
      · simp at h

theorem findallPrimAux_label :
    ∀ (fuel : Nat) (l : List Char) (p : List Char × List Char),
      p ∈ findallPrimAux fuel l → p.1 ≠ [] ∧ ∀ c ∈ p.1, isWsB c = false := by
  intro fuel
  induction fuel with
  | zero => intro l p hp; simp [findallPrimAux] at hp
  | succ f ih =>
    intro l p hp
    cases l with
    | nil => simp [findallPrimAux] at hp
    | cons a cs =>
      rw [findallPrimAux] at hp
      cases hm : matchPrimAnchor (a :: cs) with
      | none => rw [hm] at hp; exact ih _ _ hp
      | some pr =>
        obtain ⟨lab, rest⟩ := pr
        rw [hm] at hp
        rcases List.mem_cons.mp hp with h | h
        · obtain ⟨hne, hw⟩ := matchPrimAnchor_label _ _ _ hm
          subst h
          exact ⟨hne, fun c hc => wordHy_not_ws c (hw c hc)⟩
        · exact ih _ _ h

theorem findallSecAux_label :
    ∀ (fuel : Nat) (l : List Char) (p : List Char × List Char),
      p ∈ findallSecAux fuel l → p.1 ≠ [] ∧ ∀ c ∈ p.1, isWsB c = false := by
  intro fuel
  induction fuel with
  | zero => intro l p hp; simp [findallSecAux] at hp
  | succ f ih =>
    intro l p hp
    cases l with
    | nil => simp [findallSecAux] at hp
    | cons a cs =>
      rw [findallSecAux] at hp
      cases hm : matchSecAnchor (a :: cs) with
      | none => rw [hm] at hp; exact ih _ _ hp
      | some pr =>
        obtain ⟨lab, rest⟩ := pr
        rw [hm] at hp
        rcases List.mem_cons.mp hp with h | h
        · obtain ⟨hne, hw⟩ := matchSecAnchor_label _ _ _ hm
          subst h
          exact ⟨hne, hw⟩
        · exact ih _ _ h

theorem matchesOf_label (text : List Char) (p : List Char × List Char)
    (hp : p ∈ matchesOf text) : p.1 ≠ [] ∧ ∀ c ∈ p.1, isWsB c = false := by
  simp only [matchesOf] at hp
  split at hp
  · exact findallSecAux_label _ _ _ hp
  · exact findallPrimAux_label _ _ _ hp

theorem mkTestCaseId_of_clean (tid : List Char) (idx : Nat)
    (h1 : strip tid = tid) (h2 : tid ≠ []) :
    mkTestCaseId tid idx = "TC-".data ++ tid := by
  unfold mkTestCaseId
  rw [h1]
  have he : tid.isEmpty = false := by
    cases tid with
    | nil => exact absurd rfl h2
    | cons a as => rfl
  simp [he]

/-! ### C9 -/

/-- C9: the i-th record's id is the literal prefix `TC-` followed by
exactly the label captured by the i-th anchor match (the first component of
the i-th entry of `matchesOf`); that captured label is non-empty and
whitespace-free, so the guard `strip(label) != ""` always selects the
non-fallback branch of `mkTestCaseId` and the synthesized zero-padded
positional fallback id is never produced. -/
theorem c9_id_prefix_never_fallback (text key : List Char) (i : Nat)
    (hi : i < (parse_test_cases text key).length) :
    ((matchesOf text).getD i dMatch).1 ≠ [] ∧
    strip ((matchesOf text).getD i dMatch).1 =
      ((matchesOf text).getD i dMatch).1 ∧
    ((parse_test_cases text key).getD i dTC).id =
      "TC-".data ++ ((matchesOf text).getD i dMatch).1 := by
  have hm : i < (matchesOf text).length := by
    rw [← parse_length text key]; exact hi
  have hmem : (matchesOf text).getD i dMatch ∈ matchesOf text := by
    rw [List.getD_eq_getElem _ _ hm]
    exact List.getElem_mem _
  obtain ⟨hne, hnws⟩ := matchesOf_label text _ hmem
  have hstrip : strip ((matchesOf text).getD i dMatch).1 =
      ((matchesOf text).getD i dMatch).1 := strip_eq_self _ hnws
  refine ⟨hne, hstrip, ?_⟩
  rw [parse_getD text key i hm]
  rw [show (parseBlock key (i + 1) ((matchesOf text).getD i dMatch).1
      ((matchesOf text).getD i dMatch).2).id =
      mkTestCaseId ((matchesOf text).getD i dMatch).1 (i + 1) from rfl]
  exact mkTestCaseId_of_clean _ _ hstrip hne

/-- C9 witness: instantiated on the concrete one-block input, whose single
anchor match captures the label `7`. -/
theorem c9_witness :
    ((matchesOf tBasic).getD 0 dMatch).1 ≠ [] ∧
    strip ((matchesOf tBasic).getD 0 dMatch).1 =
      ((matchesOf tBasic).getD 0 dMatch).1 ∧
    ((parse_test_cases tBasic "K".data).getD 0 dTC).id =
      "TC-".data ++ ((matchesOf tBasic).getD 0 dMatch).1 :=
  c9_id_prefix_never_fallback tBasic "K".data 0 (by decide)

/-! ### C2 helper lemmas: decimal digits, line splitting, renumbering -/

theorem digitChar_isDigit (d : Nat) (h : d < 10) : (digitChar d).isDigit = true := by
  interval_cases d <;> decide

theorem natToCharsAux_spec : ∀ (fuel n : Nat), n < fuel →
    natToCharsAux fuel n ≠ [] ∧ ∀ c ∈ natToCharsAux fuel n, c.isDigit = true := by
  intro fuel
  induction fuel with
  | zero => intro n hn; omega
  | succ f ih =>
    intro n hn
    rw [natToCharsAux]
    by_cases h10 : n < 10
    · rw [if_pos h10]
      refine ⟨by simp, fun c hc => ?_⟩
      rw [List.mem_singleton.mp hc]
      exact digitChar_isDigit n h10
    · rw [if_neg h10]
      have hdiv : n / 10 < f := by
        have h1 : n / 10 < n := Nat.div_lt_self (by omega) (by omega)
        omega
      obtain ⟨hne, hd⟩ := ih (n / 10) hdiv
      refine ⟨by simp, fun c hc => ?_⟩
      rcases List.mem_append.mp hc with hc | hc
      · exact hd c hc
      · rw [List.mem_singleton.mp hc]
        exact digitChar_isDigit (n % 10) (Nat.mod_lt _ (by omega))

theorem natToChars_spec (n : Nat) :
    natToChars n ≠ [] ∧ ∀ c ∈ natToChars n, c.isDigit = true :=
  natToCharsAux_spec (n + 1) n (by omega)

theorem digit_ne_nl (c : Char) (h : c.isDigit = true) : ¬ c = '\n' := by
  rintro rfl
  exact absurd h (by decide)

theorem headD_mem (l : List Char) (d : Char) (h : l ≠ []) : l.headD d ∈ l := by
  cases l with
  | nil => exact absurd rfl h
  | cons a as => simp

theorem splitNl_no_nl (l : List Char) (h : ∀ c ∈ l, ¬ c = '\n') :
    splitNl l = [l] := by
  induction l with
  | nil => rfl
  | cons c cs ih =>
    have h1 : ¬ c = '\n' := h c (List.mem_cons_self c cs)
    have h2 := ih fun c' hc' => h c' (List.mem_cons_of_mem _ hc')
    simp [splitNl, h1, h2]

theorem splitNl_cons_nl_append (l r : List Char) (h : ∀ c ∈ l, ¬ c = '\n') :
    splitNl (l ++ '\n' :: r) = l :: splitNl r := by
  induction l with
  | nil => simp [splitNl]
  | cons c cs ih =>
    have h1 : ¬ c = '\n' := h c (List.mem_cons_self c cs)
    have h2 := ih fun c' hc' => h c' (List.mem_cons_of_mem _ hc')
    simp [splitNl, h1, h2]

theorem splitNl_joinNl (ls : List (List Char)) (hne : ls ≠ [])
    (h : ∀ l ∈ ls, ∀ c ∈ l, ¬ c = '\n') : splitNl (joinNl ls) = ls := by
  induction ls with
  | nil => exact absurd rfl hne
  | cons l ls ih =>
    cases ls with
    | nil => exact splitNl_no_nl l (h l (List.mem_cons_self l []))
    | cons l2 ls2 =>
      rw [show joinNl (l :: l2 :: ls2) = l ++ '\n' :: joinNl (l2 :: ls2) from rfl,
        splitNl_cons_nl_append _ _ (h l (List.mem_cons_self _ _)),
        ih (by simp) (fun l' hl' c hc => h l' (List.mem_cons_of_mem _ hl') c hc)]

theorem splitNl_mem_no_nl : ∀ (l : List Char) (p : List Char), p ∈ splitNl l →
    ∀ c ∈ p, ¬ c = '\n' := by
  intro l
  induction l with
  | nil =>
    intro p hp c hc
    rw [show splitNl [] = [[]] from rfl] at hp
    rw [List.mem_singleton.mp hp] at hc
    simp at hc
  | cons a as ih =>
    intro p hp c hc
    rw [splitNl] at hp
    by_cases ha : a = '\n'
    · rw [if_pos ha] at hp
      rcases List.mem_cons.mp hp with rfl | hp
      · simp at hc
      · exact ih p hp c hc
    · rw [if_neg ha] at hp
      cases hs : splitNl as with
      | nil =>
        rw [hs] at hp
        rw [List.mem_singleton.mp hp] at hc
        rcases List.mem_cons.mp hc with rfl | hc2
        · exact ha
        · simp at hc2
      | cons q qs =>
        rw [hs] at hp
        rcases List.mem_cons.mp hp with rfl | hp
        · rcases List.mem_cons.mp hc with rfl | hc2
          · exact ha
          · exact ih q (by rw [hs]; exact List.mem_cons_self q qs) c hc2
        · exact ih p (by rw [hs]; exact List.mem_cons_of_mem _ hp) c hc

theorem strip_mem_subset (l : List Char) (c : Char) (hc : c ∈ strip l) : c ∈ l := by
  unfold strip at hc
  rw [List.mem_reverse] at hc
  have h1 := (List.dropWhile_sublist isWsB).mem hc
  rw [List.mem_reverse] at h1
  exact (List.dropWhile_sublist isWsB).mem h1

theorem stepSourceLines_mem (t : List Char) :
    ∀ l ∈ stepSourceLines t, l ≠ [] ∧ ∀ c ∈ l, ¬ c = '\n' := by
  intro l hl
  unfold stepSourceLines at hl
  obtain ⟨hmap, hpred⟩ := List.mem_filter.mp hl
  obtain ⟨p, hp, rfl⟩ := List.mem_map.mp hmap
  refine ⟨by simpa using hpred, fun c hc => ?_⟩
  exact splitNl_mem_no_nl _ p hp c (strip_mem_subset p c hc)

theorem startsNumDot_head (l : List Char) (h : startsNumDot l = true) :
    (l.headD ' ').isDigit = true := by
  cases l with
  | nil => simp [startsNumDot] at h
  | cons a as =>
    by_cases hd : a.isDigit
    · simpa using hd
    · simp [startsNumDot, List.takeWhile, hd] at h

theorem renumber_length : ∀ (ls : List (List Char)) (k : Nat),
    (renumber k ls).length = ls.length := by
  intro ls
  induction ls with
  | nil => intro k; rfl
  | cons l ls ih => intro k; simp [renumber, ih]

theorem renumber_getD : ∀ (ls : List (List Char)) (k j : Nat), j < ls.length →
    (renumber k ls).getD j [] =
      (if startsNumDot (ls.getD j []) = true then ls.getD j []
       else natToChars (k + j + 1) ++ '.' :: ' ' :: ls.getD j []) := by
  intro ls
  induction ls with
  | nil => intro k j hj; simp at hj
  | cons l ls ih =>
    intro k j hj
    cases j with
    | zero => simp [renumber]
    | succ n =>
      have hn : n < ls.length := by simpa using hj
      have h2 := ih (k + 1) n hn
      simp only [renumber, List.getD_cons_succ]
      rw [h2]
      have hidx : k + 1 + n + 1 = k + (n + 1) + 1 := by omega
      rw [hidx]

theorem renumber_mem : ∀ (ls : List (List Char)) (k : Nat),
    (∀ l ∈ ls, l ≠ [] ∧ ∀ c ∈ l, ¬ c = '\n') →
    ∀ l' ∈ renumber k ls,
      l' ≠ [] ∧ (∀ c ∈ l', ¬ c = '\n') ∧ (l'.headD ' ').isDigit = true := by
  intro ls
  induction ls with
  | nil => intro k _ l' hl'; simp [renumber] at hl'
  | cons l ls ih =>
    intro k h l' hl'
    rw [renumber] at hl'
    rcases List.mem_cons.mp hl' with rfl | hl'
    · obtain ⟨hne, hnl⟩ := h l (List.mem_cons_self l ls)
      by_cases hs : startsNumDot l = true
      · rw [if_pos hs]
        exact ⟨hne, hnl, startsNumDot_head l hs⟩
      · rw [if_neg hs]
        obtain ⟨hnne, hnd⟩ := natToChars_spec (k + 1)
        refine ⟨by simp, fun c hc => ?_, ?_⟩
        · rcases List.mem_append.mp hc with hc | hc
          · exact digit_ne_nl c (hnd c hc)
          · rcases List.mem_cons.mp hc with rfl | hc
            · decide
            · rcases List.mem_cons.mp hc with rfl | hc
              · decide
              · exact hnl c hc
        · have hh : ((natToChars (k + 1) ++ '.' :: ' ' :: l).headD ' ') =
              (natToChars (k + 1)).headD ' ' := by
            cases hn : natToChars (k + 1) with
            | nil => exact absurd hn hnne
            | cons b bs => rfl
          rw [hh]
          exact hnd _ (headD_mem _ ' ' hnne)
    · exact ih (k + 1) (fun x hx => h x (List.mem_cons_of_mem _ hx)) l' hl'

theorem formatSteps_splitNl (t : List Char) (hne : stepSourceLines t ≠ []) :
    splitNl (formatSteps t) = renumber 0 (stepSourceLines t) := by
  by_cases ht : t.isEmpty
  · exfalso
    apply hne
    rw [List.isEmpty_iff.mp ht]
    rfl
  · rw [show formatSteps t = joinNl (renumber 0 (stepSourceLines t)) from by
      unfold formatSteps; rw [if_neg ht]]
    apply splitNl_joinNl
    · intro h0
      apply hne
      have := renumber_length (stepSourceLines t) 0
      rw [h0] at this
      exact List.length_eq_zero.mp this.symm
    · intro l' hl'
      exact (renumber_mem (stepSourceLines t) 0 (stepSourceLines_mem t) l' hl').2.1

theorem stepsOf_shape (content : List Char) :
    stepsOf content = [] ∨ ∃ t, stepsOf content = formatSteps t := by
  unfold stepsOf
  cases h1 : searchFrom matchStepsLit content with
  | none => exact Or.inl rfl
  | some rest =>
    dsimp only
    by_cases h2 : (!(strip (lazyUntil lookE1 rest).1).isEmpty) = true
    · rw [if_pos h2]
      exact Or.inr ⟨_, rfl⟩
    · rw [if_neg h2]
      by_cases h3 : (!(strip (lazyUntil lookE2 rest).1).isEmpty) = true
      · rw [if_pos h3]
        exact Or.inr ⟨_, rfl⟩
      · rw [if_neg h3]
        exact Or.inl rfl

theorem correctiveStage_shape (content steps pre : List Char)
    (h : steps = [] ∨ ∃ t, steps = formatSteps t) :
    (correctiveStage content steps pre).1 = [] ∨
      ∃ t, (correctiveStage content steps pre).1 = formatSteps t := by
  unfold correctiveStage
  by_cases h1 : (steps.isEmpty && containsSub content "Steps:".data) = true
  · rw [if_pos h1]
    by_cases h2 : 1 < (splitSeq "Steps:".data content).length
    · rw [if_pos h2]
      by_cases h3 : hasNumLine (strip ((splitSeq "Steps:".data content).getD 1 []))
          = true
      · rw [if_pos h3]
        exact Or.inr ⟨_, rfl⟩
      · rw [if_neg h3]
        exact h
    · rw [if_neg h2]
      exact h
  · rw [if_neg h1]
    exact h

theorem recoveryStage_shape (steps expected : List Char)
    (h : steps = [] ∨ ∃ t, steps = formatSteps t) :
    (recoveryStage steps expected).1 = [] ∨
      ∃ t, (recoveryStage steps expected).1 = formatSteps t := by
  unfold recoveryStage
  by_cases h1 : (expected.isEmpty && !steps.isEmpty) = true
  · rw [if_pos h1]
    by_cases h2 : 1 < (splitOnSeps recSeps steps).length
    · rw [if_pos h2]
      exact Or.inr ⟨_, rfl⟩
    · rw [if_neg h2]
      exact h
  · rw [if_neg h1]
    exact h

theorem parseBlock_steps_shape (key : List Char) (j : Nat) (lab content : List Char) :
    (parseBlock key j lab content).steps = [] ∨
      ∃ t, (parseBlock key j lab content).steps = formatSteps t := by
  rw [show (parseBlock key j lab content).steps =
      (recoveryStage
        (correctiveStage (collapseNl (strip content))
          (stepsOf (collapseNl (strip content)))
          (precondOf (collapseNl (strip content)))).1
        (expectedOf (collapseNl (strip content)))).1 from rfl]
  exact recoveryStage_shape _ _ (correctiveStage_shape _ _ _ (stepsOf_shape _))

/-! ### C2 -/

/-- Input whose source steps carry their own (non-1-based) numbering. -/
def tC2 : List Char := "Test Case A:\nSteps:\n5. wash\n7. dry".data

/-- C2 counterexample: the claim that the emitted step prefixes are exactly
`1.`, `2.`, … fails: a source line already starting with `5.` is kept
verbatim, so the first emitted step line of this record is prefixed `5.`,
not `1.`. -/
theorem c2_counterexample :
    (parse_test_cases tC2 "K".data).length = 1 ∧
    ((parse_test_cases tC2 "K".data).getD 0 dTC).steps = "5. wash\n7. dry".data ∧
    ¬ (∀ j, j < (splitNl (((parse_test_cases tC2 "K".data).getD 0 dTC).steps)).length →
        (natToChars (j + 1) ++ ['.']).isPrefixOf
          ((splitNl (((parse_test_cases tC2 "K".data).getD 0 dTC).steps)).getD j [])
            = true) := by
  refine ⟨by decide, by decide, ?_⟩
  intro hall
  have h0 := hall 0 (by decide)
  revert h0
  decide

/-- C2 (amended): every record's steps field is either empty or the image
of `_format_steps`; and `_format_steps` emits one line per non-empty
stripped source line, in order, keeping a line verbatim when it already
begins with `<digits>.` and otherwise prefixing it with `<j>. ` for its
1-based position `j`.  (Prefixes are exactly `1.`, `2.`, … only in the
special case where no source line carries its own numeral prefix.) -/
theorem c2_amended_renumbering :
    (∀ t : List Char,
      (stepSourceLines t = [] → formatSteps t = []) ∧
      (stepSourceLines t ≠ [] →
        (splitNl (formatSteps t)).length = (stepSourceLines t).length ∧
        ∀ j, j < (stepSourceLines t).length →
          (splitNl (formatSteps t)).getD j [] =
            (if startsNumDot ((stepSourceLines t).getD j []) = true
             then (stepSourceLines t).getD j []
             else natToChars (j + 1) ++ '.' :: ' ' :: (stepSourceLines t).getD j []))) ∧
    (∀ text key r, r ∈ parse_test_cases text key →
      r.steps = [] ∨ ∃ t, r.steps = formatSteps t) := by
  constructor
  · intro t
    constructor
    · intro h0
      by_cases ht : t.isEmpty
      · unfold formatSteps
        rw [if_pos ht]
      · unfold formatSteps
        rw [if_neg ht, h0]
        rfl
    · intro hne
      have hsplit := formatSteps_splitNl t hne
      constructor
      · rw [hsplit, renumber_length]
      · intro j hj
        rw [hsplit, renumber_getD _ 0 j hj]
        simp only [Nat.zero_add]
  · intro text key r hr
    obtain ⟨j, lab, content, rfl⟩ := parse_mem text key r hr
    exact parseBlock_steps_shape key j lab content

/-- C2 witness: the per-line law at a concrete steps text whose first line
is numbered `5.` and whose second line is unnumbered, and the image
property at a concrete parsed record. -/
theorem c2_witness :
    ((splitNl (formatSteps "5. wash\nrinse".data)).length =
      (stepSourceLines "5. wash\nrinse".data).length) ∧
    (((parse_test_cases tC2 "K".data).getD 0 dTC).steps = [] ∨
      ∃ t, ((parse_test_cases tC2 "K".data).getD 0 dTC).steps = formatSteps t) :=
  ⟨((c2_amended_renumbering.1 "5. wash\nrinse".data).2 (by decide)).1,
   c2_amended_renumbering.2 tC2 "K".data _
     (by rw [List.getD_eq_getElem _ _ (by decide)]; exact List.getElem_mem _)⟩

/-! ### C7 -/

/-- Scenario-A-shaped input on which the corrective pass actually fires:
in each block the naive steps extraction finds only whitespace (the first
`Step:` token is a decoy immediately followed by an `Expected Result`
boundary), while a later mid-line `Steps:` token carries the numbered
list, nested inside the text captured for preconditions. -/
def tScenA : List Char :=
  ("Test Case 1:\nSection: Alpha\nPreconditions: User logged in. Step:\n" ++
   "Expected Result x Steps:\n1. open\n2. click\n3. verify\n" ++
   "Expected Result: success shown indeed\n" ++
   "Test Case 2:\nSection: Beta\nPreconditions: Admin ready. Step:\n" ++
   "Expected Result y Steps:\n1. load\n2. submit\n3. confirm\n" ++
   "Expected Result: saved shown indeed").data

/-- Two well-formed blocks in which the `Steps:` label sits mid-line inside
the preconditions text (nested under `Preconditions:`), with the numbered
list directly after it. -/
def tScenA2 : List Char :=
  ("Test Case 1:\nPreconditions: User ready Steps:\n1. alpha\n2. beta\n" ++
   "3. gamma\nExpected Result: fine done\n" ++
   "Test Case 2:\nPreconditions: Admin set Steps:\n1. delta\n2. epsilon\n" ++
   "3. zeta\nExpected Result: good done").data

/-- C7 counterexample: on a two-block input with `Steps:` nested under
`Preconditions:`, the primary steps pattern still matches (it needs no line
start), so the corrective pass never runs and the returned preconditions
field still contains the full step content — contradicting the claim that
preconditions no longer contains the step content. -/
theorem c7_counterexample :
    (parse_test_cases tScenA2 "K".data).length = 2 ∧
    ((parse_test_cases tScenA2 "K".data).getD 0 dTC).steps =
      "1. alpha\n2. beta\n3. gamma".data ∧
    containsSub ((parse_test_cases tScenA2 "K".data).getD 0 dTC).preconditions
      (((parse_test_cases tScenA2 "K".data).getD 0 dTC).steps) = true ∧
    containsSub ((parse_test_cases tScenA2 "K".data).getD 0 dTC).preconditions
      "Steps:".data = true := by
  refine ⟨by decide, by decide, by decide, by decide⟩

/-- C7 (amended): the corrective pass moves the nested step content out of
preconditions only when the two naive steps patterns both capture nothing;
on such an input (both blocks of `tScenA`) each returned record has
non-empty preconditions and steps, the preconditions no longer contain the
`Steps:` token nor the step content, and the two fields are distinct.
When the naive extraction already succeeds at the nested label (as in the
counterexample) preconditions retains the step content. -/
theorem c7_amended_corrective_pass :
    (parse_test_cases tScenA "K".data).length = 2 ∧
    ((parse_test_cases tScenA "K".data).getD 0 dTC).preconditions ≠ [] ∧
    ((parse_test_cases tScenA "K".data).getD 0 dTC).steps =
      "1. open\n2. click\n3. verify".data ∧
    containsSub ((parse_test_cases tScenA "K".data).getD 0 dTC).preconditions
      "Steps:".data = false ∧
    containsSub ((parse_test_cases tScenA "K".data).getD 0 dTC).preconditions
      (((parse_test_cases tScenA "K".data).getD 0 dTC).steps) = false ∧
    ((parse_test_cases tScenA "K".data).getD 0 dTC).preconditions ≠
      ((parse_test_cases tScenA "K".data).getD 0 dTC).steps ∧
    ((parse_test_cases tScenA "K".data).getD 1 dTC).preconditions ≠ [] ∧
    ((parse_test_cases tScenA "K".data).getD 1 dTC).steps =
      "1. load\n2. submit\n3. confirm".data ∧
    containsSub ((parse_test_cases tScenA "K".data).getD 1 dTC).preconditions
      "Steps:".data = false ∧
    containsSub ((parse_test_cases tScenA "K".data).getD 1 dTC).preconditions
      (((parse_test_cases tScenA "K".data).getD 1 dTC).steps) = false ∧
    ((parse_test_cases tScenA "K".data).getD 1 dTC).preconditions ≠
      ((parse_test_cases tScenA "K".data).getD 1 dTC).steps := by
  refine ⟨by decide, by decide, by decide, by decide, by decide, by decide,
    by decide, by decide, by decide, by decide, by decide⟩

/-! ### C8 helper lemmas: the recovery split can never match -/

/-- Whether the list begins with a decimal digit. -/
def nlDigitHead : List Char → Bool
  | c2 :: _ => c2.isDigit
  | [] => false

/-- Every newline in the list is immediately followed by a digit (and the
list does not end in a newline). -/
def nlDigit : List Char → Bool
  | [] => true
  | c :: cs => if c = '\n' then nlDigitHead cs && nlDigit cs else nlDigit cs

theorem nlDigit_tail (c : Char) (cs : List Char) (h : nlDigit (c :: cs) = true) :
    nlDigit cs = true := by
  rw [nlDigit] at h
  by_cases hc : c = '\n'
  · rw [if_pos hc, Bool.and_eq_true] at h
    exact h.2
  · rwa [if_neg hc] at h

theorem nlDigit_no_nl (l : List Char) (h : ∀ c ∈ l, ¬ c = '\n') :
    nlDigit l = true := by
  induction l with
  | nil => rfl
  | cons c cs ih =>
    rw [nlDigit, if_neg (h c (List.mem_cons_self c cs))]
    exact ih fun c' hc' => h c' (List.mem_cons_of_mem _ hc')

theorem nlDigit_concat (l r : List Char) (h : ∀ c ∈ l, ¬ c = '\n')
    (hr : nlDigit ('\n' :: r) = true) : nlDigit (l ++ '\n' :: r) = true := by
  induction l with
  | nil => exact hr
  | cons c cs ih =>
    rw [List.cons_append, nlDigit, if_neg (h c (List.mem_cons_self c cs))]
    exact ih fun c' hc' => h c' (List.mem_cons_of_mem _ hc')

theorem joinNl_cons_eq (l : List Char) (ls : List (List Char)) :
    ∃ rest, joinNl (l :: ls) = l ++ rest := by
  cases ls with
  | nil => exact ⟨[], by simp [joinNl]⟩
  | cons l2 ls2 => exact ⟨'\n' :: joinNl (l2 :: ls2), rfl⟩

theorem joinNl_nlDigit : ∀ (ls : List (List Char)),
    (∀ l ∈ ls, l ≠ [] ∧ (∀ c ∈ l, ¬ c = '\n') ∧ (l.headD ' ').isDigit = true) →
    nlDigit (joinNl ls) = true := by
  intro ls
  induction ls with
  | nil => intro _; rfl
  | cons l ls ih =>
    intro h
    cases ls with
    | nil => exact nlDigit_no_nl l (h l (List.mem_cons_self l [])).2.1
    | cons l2 ls2 =>
      rw [show joinNl (l :: l2 :: ls2) = l ++ '\n' :: joinNl (l2 :: ls2) from rfl]
      apply nlDigit_concat _ _ (h l (List.mem_cons_self _ _)).2.1
      obtain ⟨hne2, hnl2, hd2⟩ :=
        h l2 (List.mem_cons_of_mem _ (List.mem_cons_self _ _))
      have hrec := ih fun x hx => h x (List.mem_cons_of_mem _ hx)
      rw [nlDigit, if_pos rfl, Bool.and_eq_true]
      refine ⟨?_, hrec⟩
      obtain ⟨rest, hrest⟩ := joinNl_cons_eq l2 ls2
      rw [hrest]
      cases l2 with
      | nil => exact absurd rfl hne2
      | cons b bs => simpa [nlDigitHead] using hd2

theorem sepHere_none (seps : List (List Char)) (l : List Char)
    (h : ∀ sep ∈ seps, sep.isPrefixOf l = false) : sepHere seps l = none := by
  induction seps with
  | nil => rfl
  | cons s ss ih =>
    rw [sepHere, List.findSome?_cons]
    rw [h s (List.mem_cons_self s ss)]
    simp only [Bool.false_eq_true, if_false]
    exact ih fun s' hs' => h s' (List.mem_cons_of_mem _ hs')

theorem prefix_snd_not_digit (b c2 : Char) (ss cs2 : List Char)
    (hb : b.isDigit = false) (h2 : c2.isDigit = true) :
    ('\n' :: b :: ss).isPrefixOf ('\n' :: c2 :: cs2) = false := by
  cases hp : ('\n' :: b :: ss).isPrefixOf ('\n' :: c2 :: cs2)
  · rfl
  · exfalso
    simp only [List.isPrefixOf, Bool.and_eq_true, beq_iff_eq] at hp
    obtain ⟨-, hbc, -⟩ := hp
    rw [← hbc, hb] at h2
    exact absurd h2 (by decide)

theorem recSeps_not_match (c2 : Char) (cs2 : List Char) (h2 : c2.isDigit = true) :
    sepHere recSeps ('\n' :: c2 :: cs2) = none := by
  apply sepHere_none
  intro sep hsep
  simp only [recSeps, List.mem_cons, List.not_mem_nil, or_false] at hsep
  rcases hsep with rfl | rfl | rfl | rfl
  · exact prefix_snd_not_digit 'E' c2 _ cs2 (by decide) h2
  · exact prefix_snd_not_digit 'E' c2 _ cs2 (by decide) h2
  · exact prefix_snd_not_digit 'e' c2 _ cs2 (by decide) h2
  · exact prefix_snd_not_digit 'e' c2 _ cs2 (by decide) h2

theorem recSeps_sep_none (l : List Char) (h : nlDigit l = true) :
    sepHere recSeps l = none := by
  cases l with
  | nil => rfl
  | cons c cs =>
    by_cases hc : c = '\n'
    · subst hc
      cases cs with
      | nil => exact absurd h (by decide)
      | cons c2 cs2 =>
        have h2 : c2.isDigit = true := by
          rw [nlDigit, if_pos rfl, Bool.and_eq_true] at h
          simpa [nlDigitHead] using h.1
        exact recSeps_not_match c2 cs2 h2
    · apply sepHere_none
      intro sep hsep
      simp only [recSeps, List.mem_cons, List.not_mem_nil, or_false] at hsep
      have hform : ∃ ss, sep = '\n' :: ss := by
        rcases hsep with rfl | rfl | rfl | rfl
        · exact ⟨_, rfl⟩
        · exact ⟨_, rfl⟩
        · exact ⟨_, rfl⟩
        · exact ⟨_, rfl⟩
      obtain ⟨ss, rfl⟩ := hform
      cases hp : ('\n' :: ss).isPrefixOf (c :: cs)
      · rfl
      · exfalso
        simp only [List.isPrefixOf, Bool.and_eq_true, beq_iff_eq] at hp
        exact hc hp.1.symm

theorem formatSteps_eq_joinNl (t : List Char) (hne : stepSourceLines t ≠ []) :
    formatSteps t = joinNl (renumber 0 (stepSourceLines t)) := by
  by_cases ht : t.isEmpty
  · exfalso
    apply hne
    rw [List.isEmpty_iff.mp ht]
    rfl
  · unfold formatSteps
    rw [if_neg ht]

theorem formatSteps_nil_of (t : List Char) (h0 : stepSourceLines t = []) :
    formatSteps t = [] := by
  by_cases ht : t.isEmpty
  · unfold formatSteps
    rw [if_pos ht]
  · unfold formatSteps
    rw [if_neg ht, h0]
    rfl

theorem splitOnSepsAux_recSeps_noop : ∀ (fuel : Nat) (l : List Char),
    nlDigit l = true → splitOnSepsAux recSeps fuel l = [l] := by
  intro fuel
  induction fuel with
  | zero => intro l _; rfl
  | succ f ih =>
    intro l h
    cases l with
    | nil => rfl
    | cons c cs =>
      rw [splitOnSepsAux, recSeps_sep_none _ h, ih cs (nlDigit_tail c cs h)]

theorem nlDigit_formatSteps (t : List Char) : nlDigit (formatSteps t) = true := by
  by_cases h0 : stepSourceLines t = []
  · rw [formatSteps_nil_of t h0]
    rfl
  · rw [formatSteps_eq_joinNl t h0]
    apply joinNl_nlDigit
    intro l' hl'
    exact renumber_mem _ 0 (stepSourceLines_mem t) l' hl'

theorem recoveryStage_noop_on_formatted (t expected : List Char) :
    recoveryStage (formatSteps t) expected = (formatSteps t, expected) := by
  unfold recoveryStage
  by_cases h1 : (expected.isEmpty && !(formatSteps t).isEmpty) = true
  · rw [if_pos h1]
    have hsplit : splitOnSeps recSeps (formatSteps t) = [formatSteps t] := by
      unfold splitOnSeps
      exact splitOnSepsAux_recSeps_noop _ _ (nlDigit_formatSteps t)
    rw [hsplit, if_neg (by simp)]
  · rw [if_neg h1]

/-! ### C8 -/

/-- A block with an `Expected Result:` marker embedded in the steps text and
no recognized standalone expected-result field. -/
def tC8 : List Char := "Test Case A:\nSteps: Expected Result:".data

/-- C8: the recovery rule is dead code — every value that reaches the
recovery split is an output of `_format_steps`, whose every line begins
with a digit, so the split pattern `\nExpected Result:` (all of whose
alternatives require an `E`/`e` right after the newline) can never match
and the recovery stage never changes anything; on the concrete input the
block lacks a standalone expected-result field, the extracted steps embed
the `Expected Result:` marker, yet `expected_result` stays empty and the
marker remains inside `steps` — contradicting the claimed recovery. -/
theorem c8_recovery_dead :
    (∀ t e : List Char, recoveryStage (formatSteps t) e = (formatSteps t, e)) ∧
    (parse_test_cases tC8 "K".data).length = 1 ∧
    ((parse_test_cases tC8 "K".data).getD 0 dTC).expected_result = [] ∧
    ((parse_test_cases tC8 "K".data).getD 0 dTC).steps =
      "1. Expected Result:".data ∧
    containsSub ((parse_test_cases tC8 "K".data).getD 0 dTC).steps
      "Expected Result:".data = true :=
  ⟨fun t e => recoveryStage_noop_on_formatted t e,
   by decide, by decide, by decide, by decide⟩
